import Mathlib

/-!
Verification of the memory calculator (`src/main.rs`) against its
natural-language specification.

The Rust program is shallowly embedded below:

* `f64` is modelled by `F64`: an exact rational for the finite values plus
  the two infinities and NaN.  Finite literals and finite arithmetic are
  modelled exactly by `ℚ` (the inputs at issue in the claims are small
  integers, on which `f64` arithmetic is itself exact); the IEEE754 signed
  zero is collapsed to the single rational zero, and no claim settled here
  depends on it.
* Rust panics (`unwrap`, `assert_eq!`, out-of-bounds indexing,
  `unreachable!`) are modelled as values of the `Panic` type carried in an
  error result; a Rust panic aborts the whole process, which `runLines`
  reflects by stopping with the state at the moment of the panic.
* The mutually recursive evaluator walks the token list with an explicit
  cursor exactly as the source does; a fuel parameter makes the recursion
  structural.  Fuel exhaustion is kept as its own result (`fuelOut`),
  distinct from every panic, so no claim is ever settled by running out of
  fuel; the initial fuel `evalFuel` is far above the call depth of any
  terminating run that the theorems below touch.
-/

namespace CalcMem

/-- Model of Rust `f64`: exact rationals for finite values, plus the
infinities and NaN. -/
inductive F64 where
  | finite (q : ℚ)
  | posInf
  | negInf
  | nan
deriving DecidableEq, Repr

/-- IEEE754 negation (`-x` in Rust); the sign of zero is collapsed. -/
def F64.neg : F64 → F64
  | .finite q => .finite (-q)
  | .posInf => .negInf
  | .negInf => .posInf
  | .nan => .nan

/-- IEEE754 addition (`+` on `f64`), exact on the finite values. -/
def F64.add : F64 → F64 → F64
  | .nan, _ => .nan
  | _, .nan => .nan
  | .posInf, .negInf => .nan
  | .negInf, .posInf => .nan
  | .posInf, _ => .posInf
  | _, .posInf => .posInf
  | .negInf, _ => .negInf
  | _, .negInf => .negInf
  | .finite a, .finite b => .finite (a + b)

/-- IEEE754 subtraction (`-` on `f64`): `a - b = a + (-b)` exactly. -/
def F64.sub (a b : F64) : F64 := a.add b.neg

/-- IEEE754 multiplication (`*` on `f64`), exact on the finite values. -/
def F64.mul : F64 → F64 → F64
  | .nan, _ => .nan
  | _, .nan => .nan
  | .posInf, .posInf => .posInf
  | .posInf, .negInf => .negInf
  | .negInf, .posInf => .negInf
  | .negInf, .negInf => .posInf
  | .posInf, .finite b => if b = 0 then .nan else if 0 < b then .posInf else .negInf
  | .finite a, .posInf => if a = 0 then .nan else if 0 < a then .posInf else .negInf
  | .negInf, .finite b => if b = 0 then .nan else if 0 < b then .negInf else .posInf
  | .finite a, .negInf => if a = 0 then .nan else if 0 < a then .negInf else .posInf
  | .finite a, .finite b => .finite (a * b)

/-- IEEE754 division (`/` on `f64`); division of a nonzero finite value by
(positive) zero gives a signed infinity, `0/0` gives NaN. -/
def F64.div : F64 → F64 → F64
  | .nan, _ => .nan
  | _, .nan => .nan
  | .posInf, .posInf => .nan
  | .posInf, .negInf => .nan
  | .negInf, .posInf => .nan
  | .negInf, .negInf => .nan
  | .posInf, .finite b => if 0 ≤ b then .posInf else .negInf
  | .negInf, .finite b => if 0 ≤ b then .negInf else .posInf
  | .finite _, .posInf => .finite 0
  | .finite _, .negInf => .finite 0
  | .finite a, .finite b =>
      if b = 0 then
        if a = 0 then .nan else if 0 < a then .posInf else .negInf
      else .finite (a / b)

/-- Numeric value of a digit string, most significant digit first. -/
def digitsVal (l : List Char) : Nat :=
  l.foldl (fun a c => 10 * a + (c.toNat - 48)) 0

/-- `10 ^ e` over `ℚ` for a signed exponent. -/
def pow10 (e : Int) : ℚ :=
  if 0 ≤ e then (10 : ℚ) ^ e.toNat else 1 / (10 : ℚ) ^ (-e).toNat

/-- Assemble a finite float value from sign, integer digits, fraction
digits and decimal exponent.  The integer case (no fraction digits, no
exponent) is split out; it coincides with the general formula there. -/
def mkFinite (sgnNeg : Bool) (intDigits fracDigits : List Char) (exp10 : Int) : F64 :=
  let mag : ℚ :=
    if fracDigits.isEmpty && exp10 == 0 then (digitsVal intDigits : ℚ)
    else (digitsVal (intDigits ++ fracDigits) : ℚ) / (10 : ℚ) ^ fracDigits.length * pow10 exp10
  .finite (if sgnNeg then -mag else mag)

/-- Model of Rust `f64::from_str` (the `value.parse::<f64>()` call in
`Token::parse`): an optional sign, then case-insensitively `inf`,
`infinity` or `nan`, or a decimal number with at least one digit, an
optional fraction and an optional exponent.  Finite literals are modelled
exactly as rationals (rather than rounded to the nearest double); every
claim below evaluates the parser only on small integer literals, where the
two agree. -/
def parseF64 (s : String) : Option F64 :=
  let cs := s.toList
  let sgnNeg : Bool := match cs with
    | '-' :: _ => true
    | _ => false
  let rest : List Char := match cs with
    | '+' :: t => t
    | '-' :: t => t
    | t => t
  let lower := rest.map Char.toLower
  if lower = "inf".toList ∨ lower = "infinity".toList then
    some (if sgnNeg then .negInf else .posInf)
  else if lower = "nan".toList then
    some .nan
  else
    let p1 := rest.span Char.isDigit
    let intDigits := p1.1
    let p2 : List Char × List Char := match p1.2 with
      | '.' :: t => t.span Char.isDigit
      | t => ([], t)
    let fracDigits := p2.1
    if intDigits.isEmpty && fracDigits.isEmpty then none
    else
      match p2.2 with
      | [] => some (mkFinite sgnNeg intDigits fracDigits 0)
      | e :: t =>
        if e = 'e' ∨ e = 'E' then
          let expNeg : Bool := match t with
            | '-' :: _ => true
            | _ => false
          let t2 : List Char := match t with
            | '+' :: u => u
            | '-' :: u => u
            | u => u
          let p3 := t2.span Char.isDigit
          if p3.1.isEmpty || !p3.2.isEmpty then none
          else
            some (mkFinite sgnNeg intDigits fracDigits
              (if expNeg then -(digitsVal p3.1 : Int) else (digitsVal p3.1 : Int)))
        else none

/-- The panics the Rust program can raise.  A panic aborts the whole
process. -/
inductive Panic where
  /-- `Token::parse`: `value.parse().unwrap()` on a piece that is not a
  float literal. -/
  | numberParse
  /-- Indexing a slice or `Vec` out of bounds (`tokens[i]` with
  `i >= tokens.len()`). -/
  | indexOutOfBounds
  /-- The `unreachable!()` arm of `eval_primary_expression` (and of the
  uncalled `eval_token`). -/
  | unreachableCode
  /-- `assert_eq!(tokens.len(), index)` in `eval_expression` failing. -/
  | assertTrailing
  /-- `assert_eq!(Token::RParen, tokens[next])` in
  `eval_primary_expression` failing. -/
  | assertRParen
deriving DecidableEq, Repr

/-- The token enum of the source (`enum Token`). -/
inductive Token where
  | Number (value : F64)
  | MemoryRef (name : String)
  | MemoryPlus (name : String)
  | MemoryMinus (name : String)
  | Plus
  | Minus
  | Asterisk
  | Slash
  | LParen
  | RParen
deriving DecidableEq, Repr

/-- Rust `str::starts_with`: the leading characters of `s` are exactly
`pre`. -/
def strStarts (s pre : String) : Bool :=
  s.toList.take pre.toList.length == pre.toList

/-- Rust `str::ends_with`: the trailing characters of `s` are exactly
`suf`. -/
def strEnds (s suf : String) : Bool :=
  s.toList.reverse.take suf.toList.length == suf.toList.reverse

/-- `Token::parse`.  The `_ => Self::Number(value.parse().unwrap())` arm
panics (`Panic.numberParse`) when the piece is not a float literal. -/
def Token.parse (value : String) : Except Panic Token :=
  if value = "+" then .ok .Plus
  else if value = "-" then .ok .Minus
  else if value = "*" then .ok .Asterisk
  else if value = "/" then .ok .Slash
  else if value = "(" then .ok .LParen
  else if value = ")" then .ok .RParen
  else if strStarts value "mem" then
    let memoryName := value.drop 3
    if strEnds value "+" then .ok (.MemoryPlus (memoryName.dropRight 1))
    else if strEnds value "-" then .ok (.MemoryMinus (memoryName.dropRight 1))
    else .ok (.MemoryRef memoryName)
  else
    match parseF64 value with
    | some v => .ok (.Number v)
    | none => .error .numberParse

/-- The Unicode `White_Space` code points, as tested by Rust
`char::is_whitespace`. -/
def isRustWhitespace (c : Char) : Bool :=
  c.val = 0x09 || c.val = 0x0A || c.val = 0x0B || c.val = 0x0C || c.val = 0x0D ||
  c.val = 0x20 || c.val = 0x85 || c.val = 0xA0 || c.val = 0x1680 ||
  (0x2000 ≤ c.val && c.val ≤ 0x200A) ||
  c.val = 0x2028 || c.val = 0x2029 || c.val = 0x202F || c.val = 0x205F || c.val = 0x3000

/-- Rust `str::split` with a character predicate: one piece per separator
gap, keeping empty pieces (consecutive separators, or separators at either
end, yield empty pieces); the result is never the empty list. -/
def splitChars (p : Char → Bool) : List Char → List (List Char)
  | [] => [[]]
  | c :: cs =>
    if p c then [] :: splitChars p cs
    else
      match splitChars p cs with
      | [] => [[c]]
      | piece :: rest => (c :: piece) :: rest

/-- `collect::<Vec<_>>` over the mapped parser: the first panic aborts. -/
def parseAll : List String → Except Panic (List Token)
  | [] => .ok []
  | piece :: rest =>
    match Token.parse piece with
    | .error p => .error p
    | .ok tok =>
      match parseAll rest with
      | .error p => .error p
      | .ok toks => .ok (tok :: toks)

/-- `Token::split`:
`text.split(char::is_whitespace).map(Self::parse).collect()`. -/
def Token.split (text : String) : Except Panic (List Token) :=
  parseAll ((splitChars isRustWhitespace text.toList).map String.mk)

/-- The `Memory` struct.  The `HashMap<String, f64>` is modelled as the
partial map it implements; name lookup never fails and each name holds at
most one value, exactly as in the hash map. -/
structure Memory where
  slots : String → Option F64

/-- `Memory::new`. -/
def Memory.new : Memory := ⟨fun _ => none⟩

/-- `Memory::add`: on an occupied entry add `prev_result` to the stored
value, on a vacant entry insert `prev_result`; return the resulting
value together with the updated store.  Total — the Rust entry API never
fails. -/
def Memory.add (self : Memory) (slotName : String) (prevResult : F64) : Memory × F64 :=
  match self.slots slotName with
  | some v =>
    let newVal := v.add prevResult
    (⟨fun n => if n = slotName then some newVal else self.slots n⟩, newVal)
  | none =>
    (⟨fun n => if n = slotName then some prevResult else self.slots n⟩, prevResult)

/-- `Memory::get`: the stored value, or `0.0` when the name is absent. -/
def Memory.get (self : Memory) (slotName : String) : F64 :=
  (self.slots slotName).getD (.finite 0)

/-- Result of running a piece of the program: a value, a panic (which in
Rust aborts the process), or fuel exhaustion (an artifact of the
embedding, never produced by the runs any theorem below talks about). -/
inductive EvalResult (α : Type) where
  | ok (value : α)
  | panicked (p : Panic)
  | fuelOut
deriving DecidableEq, Repr

/-- `eval_token` (defined in the source but never called; the primary
evaluator re-implements its two live arms inline). -/
def evalToken (token : Token) (memory : Memory) : EvalResult F64 :=
  match token with
  | .Number value => .ok value
  | .MemoryRef memoryName => .ok (memory.get memoryName)
  | _ => .panicked .unreachableCode

mutual

/-- `eval_additive_expression`: reduce one multiplicative sub-expression,
then loop over `+`/`-`. -/
def evalAdditiveExpression (fuel : Nat) (tokens : List Token) (index : Nat)
    (memory : Memory) : EvalResult (F64 × Nat) :=
  match fuel with
  | 0 => .fuelOut
  | fuel' + 1 =>
    match evalMultiplicativeExpression fuel' tokens index memory with
    | .ok (result, index') => evalAdditiveLoop fuel' tokens result index' memory
    | .panicked p => .panicked p
    | .fuelOut => .fuelOut
termination_by structural fuel

/-- The `while` loop of `eval_additive_expression`: consume a `+` or `-`
and a following multiplicative sub-expression (at `index + 1`), else
break, returning `(result, index)`. -/
def evalAdditiveLoop (fuel : Nat) (tokens : List Token) (result : F64) (index : Nat)
    (memory : Memory) : EvalResult (F64 × Nat) :=
  match fuel with
  | 0 => .fuelOut
  | fuel' + 1 =>
    match tokens[index]? with
    | some .Plus =>
      match evalMultiplicativeExpression fuel' tokens (index + 1) memory with
      | .ok (value, next) => evalAdditiveLoop fuel' tokens (result.add value) next memory
      | .panicked p => .panicked p
      | .fuelOut => .fuelOut
    | some .Minus =>
      match evalMultiplicativeExpression fuel' tokens (index + 1) memory with
      | .ok (value, next) => evalAdditiveLoop fuel' tokens (result.sub value) next memory
      | .panicked p => .panicked p
      | .fuelOut => .fuelOut
    | _ => .ok (result, index)
termination_by structural fuel

/-- `eval_multiplicative_expression`: reduce one primary expression, then
loop over `*`/`/`. -/
def evalMultiplicativeExpression (fuel : Nat) (tokens : List Token) (index : Nat)
    (memory : Memory) : EvalResult (F64 × Nat) :=
  match fuel with
  | 0 => .fuelOut
  | fuel' + 1 =>
    match evalPrimaryExpression fuel' tokens index memory with
    | .ok (result, index') => evalMultiplicativeLoop fuel' tokens result index' memory
    | .panicked p => .panicked p
    | .fuelOut => .fuelOut
termination_by structural fuel

/-- The `while` loop of `eval_multiplicative_expression`.  Faithful to the
source bug: on `*` or `/` it recurses into the primary evaluator at
`index` — the position of the operator itself — rather than `index + 1`,
so the primary evaluator is always entered on an `Asterisk`/`Slash` token
and hits its `unreachable!()` arm. -/
def evalMultiplicativeLoop (fuel : Nat) (tokens : List Token) (result : F64) (index : Nat)
    (memory : Memory) : EvalResult (F64 × Nat) :=
  match fuel with
  | 0 => .fuelOut
  | fuel' + 1 =>
    match tokens[index]? with
    | some .Asterisk =>
      match evalPrimaryExpression fuel' tokens index memory with
      | .ok (value, next) => evalMultiplicativeLoop fuel' tokens (result.mul value) next memory
      | .panicked p => .panicked p
      | .fuelOut => .fuelOut
    | some .Slash =>
      match evalPrimaryExpression fuel' tokens index memory with
      | .ok (value, next) => evalMultiplicativeLoop fuel' tokens (result.div value) next memory
      | .panicked p => .panicked p
      | .fuelOut => .fuelOut
    | _ => .ok (result, index)
termination_by structural fuel

/-- `eval_primary_expression`: `tokens[index]` (out of bounds panics);
a `(` recurses into the additive evaluator and then demands `)` via
`assert_eq!` (indexing `tokens[next]` first, which itself can panic);
a number or memory reference yields its value; anything else is the
`unreachable!()` arm. -/
def evalPrimaryExpression (fuel : Nat) (tokens : List Token) (index : Nat)
    (memory : Memory) : EvalResult (F64 × Nat) :=
  match fuel with
  | 0 => .fuelOut
  | fuel' + 1 =>
    match tokens[index]? with
    | none => .panicked .indexOutOfBounds
    | some .LParen =>
      match evalAdditiveExpression fuel' tokens (index + 1) memory with
      | .ok (result, next) =>
        match tokens[next]? with
        | none => .panicked .indexOutOfBounds
        | some .RParen => .ok (result, next + 1)
        | some _ => .panicked .assertRParen
      | .panicked p => .panicked p
      | .fuelOut => .fuelOut
    | some (.Number value) => .ok (value, index + 1)
    | some (.MemoryRef memoryName) => .ok (memory.get memoryName, index + 1)
    | some _ => .panicked .unreachableCode
termination_by structural fuel

end

/-- Initial fuel for one expression evaluation.  The source recursion
always terminates, with call depth linear in the token count; this bound
comfortably exceeds it on every run the theorems below examine. -/
def evalFuel (tokens : List Token) : Nat := 8 * tokens.length + 8

/-- `eval_expression`: run the additive evaluator from cursor `0`, then
`assert_eq!(tokens.len(), index)` — leftover tokens are an assert panic,
not a recoverable error. -/
def evalExpression (tokens : List Token) (memory : Memory) : EvalResult F64 :=
  match evalAdditiveExpression (evalFuel tokens) tokens 0 memory with
  | .ok (result, index) =>
    if tokens.length = index then .ok result else .panicked .assertTrailing
  | .panicked p => .panicked p
  | .fuelOut => .fuelOut

/-- The dispatch in the body of `main`'s loop, after the empty-line check:
branch on `tokens[0]` (empty token vector would panic; `Token::split`
never returns one).  Memory commands mutate the store with
`prev_result`/`-prev_result` and leave `prev_result` unchanged; any other
first token sends the whole token sequence to the expression evaluator,
whose result becomes the new `prev_result`. -/
def dispatchTokens (tokens : List Token) (memories : Memory) (prevResult : F64) :
    EvalResult (Memory × F64) :=
  match tokens with
  | [] => .panicked .indexOutOfBounds
  | first :: _ =>
    match first with
    | .MemoryPlus memoryName =>
      let added := memories.add memoryName prevResult
      .ok (added.1, prevResult)
    | .MemoryMinus memoryName =>
      let added := memories.add memoryName prevResult.neg
      .ok (added.1, prevResult)
    | _ =>
      match evalExpression tokens memories with
      | .ok result => .ok (memories, result)
      | .panicked p => .panicked p
      | .fuelOut => .fuelOut

/-- One non-empty input line: tokenize (a parse panic aborts), then
dispatch. -/
def processLine (line : String) (memories : Memory) (prevResult : F64) :
    EvalResult (Memory × F64) :=
  match Token.split line with
  | .error p => .panicked p
  | .ok tokens => dispatchTokens tokens memories prevResult

/-- Outcome of `main`'s read loop on a finite list of input lines. -/
inductive RunResult where
  /-- The loop ended normally: an empty line (`Bye!`) or the input ran
  out. -/
  | finished (memories : Memory) (prevResult : F64)
  /-- A panic aborted the process; the store and previous result are the
  values they held when the panic hit (the panicking line mutated
  neither). -/
  | panicked (p : Panic) (memories : Memory) (prevResult : F64)
  /-- Fuel artifact; never produced in the runs examined below. -/
  | fuelOut

/-- `main`'s loop: lines are processed strictly in order; an empty line
stops the session; a panic stops the whole process — later lines are
never read. -/
def runLines : List String → Memory → F64 → RunResult
  | [], memories, prev => .finished memories prev
  | line :: rest, memories, prev =>
    if line = "" then .finished memories prev
    else
      match processLine line memories prev with
      | .ok (memories', prev') => runLines rest memories' prev'
      | .panicked p => .panicked p memories prev
      | .fuelOut => .fuelOut

/-! ## Helper lemmas -/

/-- A panic on one line aborts the whole run with the state held when the
line started: later lines are never processed. -/
theorem runLines_panicked (p : Panic) (line : String) (rest : List String)
    (mem : Memory) (prev : F64) (hne : line ≠ "")
    (h : processLine line mem prev = .panicked p) :
    runLines (line :: rest) mem prev = .panicked p mem prev := by
  unfold runLines
  rw [if_neg hne, h]

/-- The only panic `Token::parse` itself can raise is the number-parse
unwrap. -/
theorem parse_error_numberParse (s : String) (p : Panic)
    (h : Token.parse s = .error p) : p = .numberParse := by
  unfold Token.parse at h
  repeat' split at h
  all_goals simp_all

/-- `splitChars` never returns the empty list of pieces. -/
theorem splitChars_ne_nil (p : Char → Bool) (l : List Char) : splitChars p l ≠ [] := by
  cases l with
  | nil => simp [splitChars]
  | cons c cs =>
    unfold splitChars
    split
    · simp
    · split <;> simp

/-- Two adjacent separator characters leave an empty piece strictly after
the first piece. -/
theorem nil_mem_splitChars_tail (p : Char → Bool) (c d : Char)
    (hc : p c = true) (hd : p d = true) :
    ∀ (xs ys : List Char), [] ∈ (splitChars p (xs ++ c :: d :: ys)).tail := by
  intro xs
  induction xs with
  | nil =>
    intro ys
    simp [splitChars, hc, hd]
  | cons x xs ih =>
    intro ys
    rw [List.cons_append]
    unfold splitChars
    by_cases hx : p x
    · simp only [hx, if_true, List.tail_cons]
      have h1 := ih ys
      rcases hS : splitChars p (xs ++ c :: d :: ys) with _ | ⟨piece, rest⟩
      · exact absurd hS (splitChars_ne_nil p _)
      · rw [hS] at h1
        exact List.mem_of_mem_tail h1
    · simp only [hx, if_false]
      rcases hS : splitChars p (xs ++ c :: d :: ys) with _ | ⟨piece, rest⟩
      · exact absurd hS (splitChars_ne_nil p _)
      · have h1 := ih ys
        rw [hS] at h1
        simpa using h1

/-- If some piece is the empty string, collecting the parsed pieces stops
at the number-parse panic (the only panic the piece parser raises). -/
theorem parseAll_numberParse (l : List String) (h : "" ∈ l) :
    parseAll l = .error .numberParse := by
  induction l with
  | nil => cases h
  | cons s rest ih =>
    rcases List.mem_cons.mp h with h | h
    · rw [← h]
      rfl
    · unfold parseAll
      cases hp : Token.parse s with
      | error p => rw [parse_error_numberParse s p hp]
      | ok t => rw [ih h]

/-! ## Unfolding lemmas for the evaluator -/

/-- One element of a decomposed token list, addressed by the length of
the part before it. -/
theorem getElem?_of_decomp (t pre post : List Token) (tok : Token) (i : Nat)
    (h : t = pre ++ tok :: post) (hi : i = pre.length) : t[i]? = some tok := by
  rw [h, hi, List.getElem?_append_right (le_refl pre.length)]
  simp

theorem evalAdditive_step (fuel : Nat) (tokens : List Token) (index : Nat) (mem : Memory)
    (v : F64) (i' : Nat)
    (h : evalMultiplicativeExpression fuel tokens index mem = .ok (v, i')) :
    evalAdditiveExpression (fuel + 1) tokens index mem
      = evalAdditiveLoop fuel tokens v i' mem := by
  unfold evalAdditiveExpression
  rw [h]

theorem evalMult_step (fuel : Nat) (tokens : List Token) (index : Nat) (mem : Memory)
    (v : F64) (i' : Nat)
    (h : evalPrimaryExpression fuel tokens index mem = .ok (v, i')) :
    evalMultiplicativeExpression (fuel + 1) tokens index mem
      = evalMultiplicativeLoop fuel tokens v i' mem := by
  unfold evalMultiplicativeExpression
  rw [h]

theorem evalAddLoop_plus (fuel : Nat) (tokens : List Token) (r : F64) (index : Nat)
    (mem : Memory) (v : F64) (next : Nat)
    (h : tokens[index]? = some .Plus)
    (hm : evalMultiplicativeExpression fuel tokens (index + 1) mem = .ok (v, next)) :
    evalAdditiveLoop (fuel + 1) tokens r index mem
      = evalAdditiveLoop fuel tokens (r.add v) next mem := by
  conv_lhs => unfold evalAdditiveLoop
  rw [h, hm]

theorem evalAddLoop_minus (fuel : Nat) (tokens : List Token) (r : F64) (index : Nat)
    (mem : Memory) (v : F64) (next : Nat)
    (h : tokens[index]? = some .Minus)
    (hm : evalMultiplicativeExpression fuel tokens (index + 1) mem = .ok (v, next)) :
    evalAdditiveLoop (fuel + 1) tokens r index mem
      = evalAdditiveLoop fuel tokens (r.sub v) next mem := by
  conv_lhs => unfold evalAdditiveLoop
  rw [h, hm]

theorem evalAddLoop_stop_some (fuel : Nat) (tokens : List Token) (r : F64) (index : Nat)
    (mem : Memory) (tok : Token) (h : tokens[index]? = some tok)
    (h1 : tok ≠ .Plus) (h2 : tok ≠ .Minus) :
    evalAdditiveLoop (fuel + 1) tokens r index mem = .ok (r, index) := by
  unfold evalAdditiveLoop
  rw [h]
  cases tok
  case Plus => exact absurd rfl h1
  case Minus => exact absurd rfl h2
  all_goals rfl

theorem evalAddLoop_stop_none (fuel : Nat) (tokens : List Token) (r : F64) (index : Nat)
    (mem : Memory) (h : tokens[index]? = none) :
    evalAdditiveLoop (fuel + 1) tokens r index mem = .ok (r, index) := by
  unfold evalAdditiveLoop
  rw [h]

theorem evalMultLoop_stop_some (fuel : Nat) (tokens : List Token) (r : F64) (index : Nat)
    (mem : Memory) (tok : Token) (h : tokens[index]? = some tok)
    (h1 : tok ≠ .Asterisk) (h2 : tok ≠ .Slash) :
    evalMultiplicativeLoop (fuel + 1) tokens r index mem = .ok (r, index) := by
  unfold evalMultiplicativeLoop
  rw [h]
  cases tok
  case Asterisk => exact absurd rfl h1
  case Slash => exact absurd rfl h2
  all_goals rfl

theorem evalMultLoop_stop_none (fuel : Nat) (tokens : List Token) (r : F64) (index : Nat)
    (mem : Memory) (h : tokens[index]? = none) :
    evalMultiplicativeLoop (fuel + 1) tokens r index mem = .ok (r, index) := by
  unfold evalMultiplicativeLoop
  rw [h]

theorem evalPrimary_number (fuel : Nat) (tokens : List Token) (index : Nat) (mem : Memory)
    (v : F64) (h : tokens[index]? = some (.Number v)) :
    evalPrimaryExpression (fuel + 1) tokens index mem = .ok (v, index + 1) := by
  unfold evalPrimaryExpression
  rw [h]

theorem evalPrimary_memoryRef (fuel : Nat) (tokens : List Token) (index : Nat) (mem : Memory)
    (name : String) (h : tokens[index]? = some (.MemoryRef name)) :
    evalPrimaryExpression (fuel + 1) tokens index mem = .ok (mem.get name, index + 1) := by
  unfold evalPrimaryExpression
  rw [h]

theorem evalPrimary_lparen (fuel : Nat) (tokens : List Token) (index : Nat) (mem : Memory)
    (v : F64) (next : Nat)
    (h : tokens[index]? = some .LParen)
    (ha : evalAdditiveExpression fuel tokens (index + 1) mem = .ok (v, next))
    (hr : tokens[next]? = some .RParen) :
    evalPrimaryExpression (fuel + 1) tokens index mem = .ok (v, next + 1) := by
  unfold evalPrimaryExpression
  rw [h, ha]
  show (match tokens[next]? with
    | none => EvalResult.panicked Panic.indexOutOfBounds
    | some Token.RParen => EvalResult.ok (v, next + 1)
    | some _ => EvalResult.panicked Panic.assertRParen) = EvalResult.ok (v, next + 1)
  rw [hr]

/-! ## The nested-parenthesis family (claim C8) -/

/-- Token sequence of the spec's nested example family: depth `0` is the
literal `1`; depth `n + 1` wraps depth `n` as `( ... + 1 )`.  Depth `4`
is exactly the token sequence of
`( ( ( ( 1 + 1 ) + 1 ) + 1 ) + 1 )`; its value is the depth plus one. -/
def nestTokens : Nat → List Token
  | 0 => [.Number (.finite 1)]
  | n + 1 => .LParen :: (nestTokens n ++ [.Plus, .Number (.finite 1), .RParen])

/-! ## Well-formed expressions without multiplication (claim C8) -/

mutual

/-- Specification side of claim C8's amended statement: a well-formed
operand of the grammar fragment without `*` and `/` — a number, a memory
reference, or a parenthesized chain. -/
inductive Operand where
  | num (v : F64)
  | ref (name : String)
  | paren (inner : Chain)

/-- A well-formed `*`/`/`-free expression: a first operand followed by
`+`/`-` steps — the grammar's additive rule with every multiplicative
reduced to a bare primary. -/
inductive Chain where
  | chain (head : Operand) (steps : Steps)

/-- The trailing `('+'|'-') operand` steps of a chain, in source order. -/
inductive Steps where
  | nil
  | plus (p : Operand) (rest : Steps)
  | minus (p : Operand) (rest : Steps)

end

mutual

/-- The token sequence of an operand. -/
def Operand.tokens : Operand → List Token
  | .num v => [.Number v]
  | .ref name => [.MemoryRef name]
  | .paren inner => .LParen :: (Chain.tokens inner ++ [.RParen])
termination_by structural o => o

/-- The token sequence of a chain. -/
def Chain.tokens : Chain → List Token
  | .chain head steps => Operand.tokens head ++ Steps.tokens steps
termination_by structural c => c

/-- The token sequence of the trailing steps. -/
def Steps.tokens : Steps → List Token
  | .nil => []
  | .plus p rest => .Plus :: (Operand.tokens p ++ Steps.tokens rest)
  | .minus p rest => .Minus :: (Operand.tokens p ++ Steps.tokens rest)
termination_by structural s => s

end

mutual

/-- Left-to-right value of an operand under the spec's semantics: memory
references resolve through the store, parentheses group. -/
def Operand.value (memory : Memory) : Operand → F64
  | .num v => v
  | .ref name => memory.get name
  | .paren inner => Chain.value memory inner
termination_by structural o => o

/-- Left-to-right value of a chain. -/
def Chain.value (memory : Memory) : Chain → F64
  | .chain head steps => Steps.value memory (Operand.value memory head) steps
termination_by structural c => c

/-- Left-to-right folding of the trailing steps over an accumulator,
using the program's own f64 addition and subtraction. -/
def Steps.value (memory : Memory) (acc : F64) : Steps → F64
  | .nil => acc
  | .plus p rest => Steps.value memory (acc.add (Operand.value memory p)) rest
  | .minus p rest => Steps.value memory (acc.sub (Operand.value memory p)) rest
termination_by structural s => s

end

theorem operand_sizeOf_pos (o : Operand) : 0 < sizeOf o := by
  cases o <;> simp_arith

theorem chain_sizeOf_pos (c : Chain) : 0 < sizeOf c := by
  cases c <;> simp_arith

theorem steps_sizeOf_pos (s : Steps) : 0 < sizeOf s := by
  cases s <;> simp_arith

/-- The first token after a prefix of an append is the head of the
suffix. -/
theorem getElem?_append_head (A post : List Token) (i : Nat) (hi : i = A.length) :
    (A ++ post)[i]? = post[0]? := by
  rw [hi, List.getElem?_append_right (le_refl A.length)]
  simp

/-- Strong-induction core for claim C8's amended statement.  With fuel
linear in the token count, (1) the primary evaluator reduces any mul-free
operand at any position to its specified value, consuming exactly its
tokens; (2) the additive evaluator does the same for a chain whenever the
following token is a closing parenthesis or the end of the sequence;
(3) the additive loop folds the trailing steps left-to-right from any
accumulator. -/
theorem eval_mulFree_core (k : Nat) :
    (∀ (o : Operand), sizeOf o ≤ k → ∀ (fuel : Nat), 3 * o.tokens.length + 1 ≤ fuel →
       ∀ (pre post : List Token) (mem : Memory),
         evalPrimaryExpression fuel (pre ++ o.tokens ++ post) pre.length mem
           = .ok (Operand.value mem o, pre.length + o.tokens.length))
  ∧ (∀ (c : Chain), sizeOf c ≤ k → ∀ (fuel : Nat), 3 * c.tokens.length + 3 ≤ fuel →
       ∀ (pre post : List Token) (mem : Memory),
         (post = [] ∨ post[0]? = some Token.RParen) →
         evalAdditiveExpression fuel (pre ++ c.tokens ++ post) pre.length mem
           = .ok (Chain.value mem c, pre.length + c.tokens.length))
  ∧ (∀ (st : Steps), sizeOf st ≤ k → ∀ (fuel : Nat), 3 * st.tokens.length + 2 ≤ fuel →
       ∀ (pre post : List Token) (mem : Memory) (acc : F64),
         (post = [] ∨ post[0]? = some Token.RParen) →
         evalAdditiveLoop fuel (pre ++ st.tokens ++ post) acc pre.length mem
           = .ok (Steps.value mem acc st, pre.length + st.tokens.length)) := by
  induction k with
  | zero =>
    refine ⟨fun o ho => ?_, fun c hc => ?_, fun st hst => ?_⟩
    · exact absurd ho (by have h := operand_sizeOf_pos o; omega)
    · exact absurd hc (by have h := chain_sizeOf_pos c; omega)
    · exact absurd hst (by have h := steps_sizeOf_pos st; omega)
  | succ k ih =>
    obtain ⟨ihP, ihC, ihS⟩ := ih
    refine ⟨?_, ?_, ?_⟩
    · intro o ho fuel hfuel pre post mem
      cases o with
      | num v =>
        obtain ⟨f, rfl⟩ : ∃ f, fuel = f + 1 := ⟨fuel - 1, by omega⟩
        have h0 : (pre ++ (Operand.num v).tokens ++ post)[pre.length]?
            = some (Token.Number v) :=
          getElem?_of_decomp _ pre post _ _ (by simp [Operand.tokens]) rfl
        rw [evalPrimary_number f _ _ mem _ h0]
        simp [Operand.value, Operand.tokens]
      | ref name =>
        obtain ⟨f, rfl⟩ : ∃ f, fuel = f + 1 := ⟨fuel - 1, by omega⟩
        have h0 : (pre ++ (Operand.ref name).tokens ++ post)[pre.length]?
            = some (Token.MemoryRef name) :=
          getElem?_of_decomp _ pre post _ _ (by simp [Operand.tokens]) rfl
        rw [evalPrimary_memoryRef f _ _ mem _ h0]
        simp [Operand.value, Operand.tokens]
      | paren inner =>
        have hszi : sizeOf inner ≤ k := by
          have h := ho
          simp at h
          omega
        have hlen : (Operand.paren inner).tokens.length = (Chain.tokens inner).length + 2 := by
          simp [Operand.tokens]
        obtain ⟨f, rfl⟩ : ∃ f, fuel = f + 1 := ⟨fuel - 1, by omega⟩
        have h_lp : (pre ++ (Operand.paren inner).tokens ++ post)[pre.length]?
            = some Token.LParen :=
          getElem?_of_decomp _ pre (Chain.tokens inner ++ Token.RParen :: post) _ _
            (by simp [Operand.tokens, List.append_assoc]) rfl
        have hT : pre ++ (Operand.paren inner).tokens ++ post
            = (pre ++ [Token.LParen]) ++ Chain.tokens inner ++ (Token.RParen :: post) := by
          simp [Operand.tokens, List.append_assoc]
        have hC := ihC inner hszi f (by omega) (pre ++ [Token.LParen]) (Token.RParen :: post)
          mem (Or.inr (by simp))
        rw [← hT] at hC
        rw [show (pre ++ [Token.LParen]).length = pre.length + 1 from by simp] at hC
        have h_rp : (pre ++ (Operand.paren inner).tokens
              ++ post)[pre.length + 1 + (Chain.tokens inner).length]?
            = some Token.RParen :=
          getElem?_of_decomp _ (pre ++ Token.LParen :: Chain.tokens inner) post _ _
            (by simp [Operand.tokens, List.append_assoc])
            (by simp only [List.length_append, List.length_cons]; omega)
        rw [evalPrimary_lparen f _ _ mem _ _ h_lp hC h_rp]
        simp only [Operand.value, EvalResult.ok.injEq, Prod.mk.injEq, true_and]
        omega
    · intro c hc fuel hfuel pre post mem hpost
      obtain ⟨head, steps⟩ := c
      have hszh : sizeOf head ≤ k := by
        have h := hc
        simp at h
        omega
      have hszs : sizeOf steps ≤ k := by
        have h := hc
        simp at h
        omega
      have hlen : (Chain.chain head steps).tokens.length
          = (Operand.tokens head).length + (Steps.tokens steps).length := by
        simp [Chain.tokens]
      obtain ⟨g, rfl⟩ : ∃ g, fuel = g + 3 := ⟨fuel - 3, by omega⟩
      have hT : pre ++ (Chain.chain head steps).tokens ++ post
          = pre ++ Operand.tokens head ++ (Steps.tokens steps ++ post) := by
        simp [Chain.tokens, List.append_assoc]
      have hP := ihP head hszh (g + 1) (by omega) pre (Steps.tokens steps ++ post) mem
      rw [← hT] at hP
      have haccess : (pre ++ (Chain.chain head steps).tokens
            ++ post)[pre.length + (Operand.tokens head).length]?
          = (Steps.tokens steps ++ post)[0]? := by
        rw [hT]
        exact getElem?_append_head _ _ _ (by simp)
      have hMult : evalMultiplicativeExpression (g + 2)
          (pre ++ (Chain.chain head steps).tokens ++ post) pre.length mem
          = .ok (Operand.value mem head, pre.length + (Operand.tokens head).length) := by
        rw [evalMult_step (g + 1) _ _ mem _ _ hP]
        cases steps with
        | nil =>
          rcases hpost with hpe | hrp
          · subst hpe
            refine evalMultLoop_stop_none g _ _ _ mem ?_
            rw [haccess]
            simp [Steps.tokens]
          · refine evalMultLoop_stop_some g _ _ _ mem Token.RParen ?_
              (by decide) (by decide)
            rw [haccess]
            simpa [Steps.tokens] using hrp
        | plus p rest =>
          refine evalMultLoop_stop_some g _ _ _ mem Token.Plus ?_
            (by decide) (by decide)
          rw [haccess]
          simp [Steps.tokens]
        | minus p rest =>
          refine evalMultLoop_stop_some g _ _ _ mem Token.Minus ?_
            (by decide) (by decide)
          rw [haccess]
          simp [Steps.tokens]
      rw [evalAdditive_step (g + 2) _ _ mem _ _ hMult]
      have hS := ihS steps hszs (g + 2) (by omega) (pre ++ Operand.tokens head) post mem
        (Operand.value mem head) hpost
      have hT2 : pre ++ (Chain.chain head steps).tokens ++ post
          = (pre ++ Operand.tokens head) ++ Steps.tokens steps ++ post := by
        simp [Chain.tokens, List.append_assoc]
      rw [hT2, show pre.length + (Operand.tokens head).length
          = (pre ++ Operand.tokens head).length from by simp]
      rw [hS]
      simp only [Chain.value, Chain.tokens, EvalResult.ok.injEq, Prod.mk.injEq,
        List.length_append, true_and]
      omega
    · intro st hst fuel hfuel pre post mem acc hpost
      cases st with
      | nil =>
        obtain ⟨f, rfl⟩ : ∃ f, fuel = f + 1 := ⟨fuel - 1, by omega⟩
        have hstop : (pre ++ Steps.tokens Steps.nil ++ post)[pre.length]? = post[0]? := by
          rw [show pre ++ Steps.tokens Steps.nil ++ post = pre ++ post from by
            simp [Steps.tokens]]
          exact getElem?_append_head _ _ _ rfl
        have hdone : evalAdditiveLoop (f + 1) (pre ++ Steps.tokens Steps.nil ++ post)
            acc pre.length mem = .ok (acc, pre.length) := by
          rcases hpost with hpe | hrp
          · subst hpe
            refine evalAddLoop_stop_none f _ _ _ mem ?_
            rw [hstop]
            rfl
          · refine evalAddLoop_stop_some f _ _ _ mem Token.RParen ?_ (by decide) (by decide)
            rw [hstop]
            exact hrp
        rw [hdone]
        simp [Steps.value, Steps.tokens]
      | plus p rest =>
        have hszp : sizeOf p ≤ k := by
          have h := hst
          simp at h
          omega
        have hszr : sizeOf rest ≤ k := by
          have h := hst
          simp at h
          omega
        have hlen : (Steps.tokens (Steps.plus p rest)).length
            = (Operand.tokens p).length + (Steps.tokens rest).length + 1 := by
          simp only [Steps.tokens, List.length_cons, List.length_append]
        obtain ⟨g, rfl⟩ : ∃ g, fuel = g + 3 := ⟨fuel - 3, by omega⟩
        have h_op : (pre ++ Steps.tokens (Steps.plus p rest) ++ post)[pre.length]?
            = some Token.Plus :=
          getElem?_of_decomp _ pre (Operand.tokens p ++ (Steps.tokens rest ++ post)) _ _
            (by simp [Steps.tokens, List.append_assoc]) rfl
        have hT : pre ++ Steps.tokens (Steps.plus p rest) ++ post
            = (pre ++ [Token.Plus]) ++ Operand.tokens p ++ (Steps.tokens rest ++ post) := by
          simp [Steps.tokens, List.append_assoc]
        have hP := ihP p hszp (g + 1) (by omega) (pre ++ [Token.Plus])
          (Steps.tokens rest ++ post) mem
        rw [← hT] at hP
        rw [show (pre ++ [Token.Plus]).length = pre.length + 1 from by simp] at hP
        have haccess : (pre ++ Steps.tokens (Steps.plus p rest)
              ++ post)[pre.length + 1 + (Operand.tokens p).length]?
            = (Steps.tokens rest ++ post)[0]? := by
          rw [hT]
          exact getElem?_append_head _ _ _
            (by simp only [List.length_append, List.length_cons, List.length_nil])
        have hMult : evalMultiplicativeExpression (g + 2)
            (pre ++ Steps.tokens (Steps.plus p rest) ++ post) (pre.length + 1) mem
            = .ok (Operand.value mem p, pre.length + 1 + (Operand.tokens p).length) := by
          rw [evalMult_step (g + 1) _ _ mem _ _ hP]
          cases rest with
          | nil =>
            rcases hpost with hpe | hrp
            · subst hpe
              refine evalMultLoop_stop_none g _ _ _ mem ?_
              rw [haccess]
              simp [Steps.tokens]
            · refine evalMultLoop_stop_some g _ _ _ mem Token.RParen ?_
                (by decide) (by decide)
              rw [haccess]
              simpa [Steps.tokens] using hrp
          | plus q r2 =>
            refine evalMultLoop_stop_some g _ _ _ mem Token.Plus ?_
              (by decide) (by decide)
            rw [haccess]
            simp [Steps.tokens]
          | minus q r2 =>
            refine evalMultLoop_stop_some g _ _ _ mem Token.Minus ?_
              (by decide) (by decide)
            rw [haccess]
            simp [Steps.tokens]
        rw [evalAddLoop_plus (g + 2) _ _ _ mem _ _ h_op hMult]
        have hS := ihS rest hszr (g + 2) (by omega) (pre ++ Token.Plus :: Operand.tokens p)
          post mem (acc.add (Operand.value mem p)) hpost
        have hT3 : pre ++ Steps.tokens (Steps.plus p rest) ++ post
            = (pre ++ Token.Plus :: Operand.tokens p) ++ Steps.tokens rest ++ post := by
          simp [Steps.tokens, List.append_assoc]
        rw [hT3, show pre.length + 1 + (Operand.tokens p).length
            = (pre ++ Token.Plus :: Operand.tokens p).length from by
          simp only [List.length_append, List.length_cons]; omega]
        rw [hS]
        simp only [Steps.value, Steps.tokens, EvalResult.ok.injEq, Prod.mk.injEq,
          List.length_append, List.length_cons, true_and]
        omega
      | minus p rest =>
        have hszp : sizeOf p ≤ k := by
          have h := hst
          simp at h
          omega
        have hszr : sizeOf rest ≤ k := by
          have h := hst
          simp at h
          omega
        have hlen : (Steps.tokens (Steps.minus p rest)).length
            = (Operand.tokens p).length + (Steps.tokens rest).length + 1 := by
          simp only [Steps.tokens, List.length_cons, List.length_append]
        obtain ⟨g, rfl⟩ : ∃ g, fuel = g + 3 := ⟨fuel - 3, by omega⟩
        have h_op : (pre ++ Steps.tokens (Steps.minus p rest) ++ post)[pre.length]?
            = some Token.Minus :=
          getElem?_of_decomp _ pre (Operand.tokens p ++ (Steps.tokens rest ++ post)) _ _
            (by simp [Steps.tokens, List.append_assoc]) rfl
        have hT : pre ++ Steps.tokens (Steps.minus p rest) ++ post
            = (pre ++ [Token.Minus]) ++ Operand.tokens p ++ (Steps.tokens rest ++ post) := by
          simp [Steps.tokens, List.append_assoc]
        have hP := ihP p hszp (g + 1) (by omega) (pre ++ [Token.Minus])
          (Steps.tokens rest ++ post) mem
        rw [← hT] at hP
        rw [show (pre ++ [Token.Minus]).length = pre.length + 1 from by simp] at hP
        have haccess : (pre ++ Steps.tokens (Steps.minus p rest)
              ++ post)[pre.length + 1 + (Operand.tokens p).length]?
            = (Steps.tokens rest ++ post)[0]? := by
          rw [hT]
          exact getElem?_append_head _ _ _
            (by simp only [List.length_append, List.length_cons, List.length_nil])
        have hMult : evalMultiplicativeExpression (g + 2)
            (pre ++ Steps.tokens (Steps.minus p rest) ++ post) (pre.length + 1) mem
            = .ok (Operand.value mem p, pre.length + 1 + (Operand.tokens p).length) := by
          rw [evalMult_step (g + 1) _ _ mem _ _ hP]
          cases rest with
          | nil =>
            rcases hpost with hpe | hrp
            · subst hpe
              refine evalMultLoop_stop_none g _ _ _ mem ?_
              rw [haccess]
              simp [Steps.tokens]
            · refine evalMultLoop_stop_some g _ _ _ mem Token.RParen ?_
                (by decide) (by decide)
              rw [haccess]
              simpa [Steps.tokens] using hrp
          | plus q r2 =>
            refine evalMultLoop_stop_some g _ _ _ mem Token.Plus ?_
              (by decide) (by decide)
            rw [haccess]
            simp [Steps.tokens]
          | minus q r2 =>
            refine evalMultLoop_stop_some g _ _ _ mem Token.Minus ?_
              (by decide) (by decide)
            rw [haccess]
            simp [Steps.tokens]
        rw [evalAddLoop_minus (g + 2) _ _ _ mem _ _ h_op hMult]
        have hS := ihS rest hszr (g + 2) (by omega) (pre ++ Token.Minus :: Operand.tokens p)
          post mem (acc.sub (Operand.value mem p)) hpost
        have hT3 : pre ++ Steps.tokens (Steps.minus p rest) ++ post
            = (pre ++ Token.Minus :: Operand.tokens p) ++ Steps.tokens rest ++ post := by
          simp [Steps.tokens, List.append_assoc]
        rw [hT3, show pre.length + 1 + (Operand.tokens p).length
            = (pre ++ Token.Minus :: Operand.tokens p).length from by
          simp only [List.length_append, List.length_cons]; omega]
        rw [hS]
        simp only [Steps.value, Steps.tokens, EvalResult.ok.injEq, Prod.mk.injEq,
          List.length_append, List.length_cons, true_and]
        omega

/-- Every well-formed `*`/`/`-free expression evaluates without panic to
its left-to-right value, consuming the whole token sequence. -/
theorem evalExpression_chain (c : Chain) (mem : Memory) :
    evalExpression (Chain.tokens c) mem = .ok (Chain.value mem c) := by
  have hC := (eval_mulFree_core (sizeOf c)).2.1 c (le_refl _) (evalFuel (Chain.tokens c))
    (by simp only [evalFuel]; omega) [] [] mem (Or.inl rfl)
  simp only [List.nil_append, List.append_nil, List.length_nil, Nat.zero_add] at hC
  unfold evalExpression
  rw [hC]
  simp

/-- The operand family of the spec's nested example: depth `0` is the
literal `1`; depth `n + 1` is `( <depth n> + 1 )`.  Its token sequence at
depth `n` is `nestTokens n`. -/
def nestOperand : Nat → Operand
  | 0 => .num (.finite 1)
  | n + 1 => .paren (.chain (nestOperand n) (.plus (.num (.finite 1)) .nil))

/-- Depth-`n` parenthesized nesting of the multiplication `2 * 3`: a
well-formed expression whose depth-10 instance refutes the original
claim C8 through the C1 bug. -/
def mulNest : Nat → List Token
  | 0 => [.Number (.finite 2), .Asterisk, .Number (.finite 3)]
  | n + 1 => .LParen :: (mulNest n ++ [.RParen])

/-! ## Claim theorems -/

/-- Claim C1 (code bug): the claim says the evaluator honours the usual
precedence, with the token sequences of two plus three times four giving
fourteen and of two times three plus four giving ten.  In the code,
`eval_multiplicative_expression` recurses into the primary evaluator at
`index` instead of `index + 1` after consuming `*` or `/`, so the primary
evaluator is entered on the operator token and hits `unreachable!()`:
every expression containing `*` or `/` panics, including the module doc's
own example `3 * 4 => 12`. -/
theorem C1_multiplication_panics :
    processLine "2 + 3 * 4" Memory.new (.finite 0) = .panicked .unreachableCode
  ∧ processLine "2 * 3 + 4" Memory.new (.finite 0) = .panicked .unreachableCode
  ∧ processLine "3 * 4" Memory.new (.finite 0) = .panicked .unreachableCode :=
  ⟨rfl, rfl, rfl⟩

/-- Claim C2, counterexample: tokenizing the line with piece `abc` does
not produce a recoverable error; `Token::parse` panics on the unwrap and
the whole process aborts — the following line is never processed.  The
store and the previous result are the untouched initial values at the
moment of the abort. -/
theorem C2_counterexample :
    Token.parse "abc" = .error .numberParse
  ∧ runLines ["abc + 1", "1 + 1"] Memory.new (.finite 0)
      = .panicked .numberParse Memory.new (.finite 0) :=
  ⟨rfl, rfl⟩

/-- Claim C2 as amended: a piece that is none of the six operator
strings, does not start with `mem`, and is not a parseable float literal
makes `Token::parse` panic on its unwrap (there is no `MalformedNumber`
error value); the panic aborts the whole process — it does not fail just
the current line — leaving the memory store and `previous_result` as they
were when the line started. -/
theorem C2_amended :
    (∀ (s : String), s ≠ "+" → s ≠ "-" → s ≠ "*" → s ≠ "/" → s ≠ "(" → s ≠ ")" →
        strStarts s "mem" = false → parseF64 s = none →
        Token.parse s = .error .numberParse)
  ∧ (∀ (p : Panic) (line : String) (rest : List String) (mem : Memory) (prev : F64),
        line ≠ "" → processLine line mem prev = .panicked p →
        runLines (line :: rest) mem prev = .panicked p mem prev) := by
  constructor
  · intro s h1 h2 h3 h4 h5 h6 h7 h8
    simp [Token.parse, h1, h2, h3, h4, h5, h6, h7, h8]
  · intro p line rest mem prev hne h
    exact runLines_panicked p line rest mem prev hne h

/-- Claim C2, witness for the amended theorem at the concrete piece
`xyz`. -/
theorem C2_witness :
    parseF64 "xyz" = none
  ∧ Token.parse "xyz" = .error .numberParse
  ∧ runLines ["xyz", "1"] Memory.new (.finite 0)
      = .panicked .numberParse Memory.new (.finite 0) :=
  ⟨rfl,
   C2_amended.1 "xyz" (by decide) (by decide) (by decide) (by decide) (by decide) (by decide)
     rfl rfl,
   C2_amended.2 .numberParse "xyz" ["1"] Memory.new (.finite 0) (by decide) rfl⟩

/-- Claim C3, counterexample: a complete expression followed by leftover
tokens does not fail with a recoverable `TrailingTokens` error; the
`assert_eq!(tokens.len(), index)` in `eval_expression` panics and the
process aborts — the next line is never read. -/
theorem C3_counterexample :
    processLine "1 + 2 3" Memory.new (.finite 0) = .panicked .assertTrailing
  ∧ runLines ["1 + 2 3", "7"] Memory.new (.finite 0)
      = .panicked .assertTrailing Memory.new (.finite 0) :=
  ⟨rfl, rfl⟩

/-- Claim C3 as amended: when the additive evaluator consumes only a
proper prefix of the token sequence, `eval_expression` panics via its
`assert_eq!` (there is no `TrailingTokens` error value), and a panic on a
line aborts the whole process rather than failing only that line. -/
theorem C3_amended :
    (∀ (tokens : List Token) (mem : Memory) (v : F64) (i : Nat),
        evalAdditiveExpression (evalFuel tokens) tokens 0 mem = .ok (v, i) →
        i ≠ tokens.length →
        evalExpression tokens mem = .panicked .assertTrailing)
  ∧ (∀ (p : Panic) (line : String) (rest : List String) (mem : Memory) (prev : F64),
        line ≠ "" → processLine line mem prev = .panicked p →
        runLines (line :: rest) mem prev = .panicked p mem prev) := by
  constructor
  · intro tokens mem v i h hi
    unfold evalExpression
    rw [h]
    simp [Ne.symm hi]
  · intro p line rest mem prev hne h
    exact runLines_panicked p line rest mem prev hne h

/-- Claim C3, witness for the amended theorem on the token sequence of
`1 2`. -/
theorem C3_witness :
    evalExpression [Token.Number (.finite 1), Token.Number (.finite 2)] Memory.new
      = .panicked .assertTrailing
  ∧ runLines ["1 2", "9"] Memory.new (.finite 0)
      = .panicked .assertTrailing Memory.new (.finite 0) :=
  ⟨C3_amended.1 [Token.Number (.finite 1), Token.Number (.finite 2)] Memory.new
     (.finite 1) 1 rfl (by decide),
   C3_amended.2 .assertTrailing "1 2" ["9"] Memory.new (.finite 0) (by decide) rfl⟩

/-- Claim C4, counterexample: a missing closing parenthesis does not
raise an `UnbalancedParens` error fatal only to the current line; the
evaluator panics (out-of-bounds indexing when the expression ran off the
end, the `assert_eq!` on `RParen` otherwise) and the panic aborts the
whole process — the next line is never processed.  The store is untouched
at the abort. -/
theorem C4_counterexample :
    processLine "( 1 + 1" Memory.new (.finite 0) = .panicked .indexOutOfBounds
  ∧ runLines ["( 1 + 1", "5"] Memory.new (.finite 0)
      = .panicked .indexOutOfBounds Memory.new (.finite 0)
  ∧ processLine "( 1 1" Memory.new (.finite 0) = .panicked .assertRParen :=
  ⟨rfl, rfl, rfl⟩

/-- Claim C4 as amended: an opened group whose reduced value is not
followed by `)` makes `eval_primary_expression` panic —
`Panic.indexOutOfBounds` when the cursor ran past the end,
`Panic.assertRParen` when some other token sits there — aborting the
whole process, not just the line; and the expression path of the
dispatcher never writes the memory store (only the mutation-command path
does). -/
theorem C4_amended :
    (∀ (fuel : Nat) (tokens : List Token) (index : Nat) (mem : Memory) (v : F64) (next : Nat),
        tokens[index]? = some .LParen →
        evalAdditiveExpression fuel tokens (index + 1) mem = .ok (v, next) →
        tokens[next]? = none →
        evalPrimaryExpression (fuel + 1) tokens index mem = .panicked .indexOutOfBounds)
  ∧ (∀ (fuel : Nat) (tokens : List Token) (index : Nat) (mem : Memory) (v : F64)
        (next : Nat) (tok : Token),
        tokens[index]? = some .LParen →
        evalAdditiveExpression fuel tokens (index + 1) mem = .ok (v, next) →
        tokens[next]? = some tok → tok ≠ .RParen →
        evalPrimaryExpression (fuel + 1) tokens index mem = .panicked .assertRParen)
  ∧ (∀ (first : Token) (rest : List Token) (mem : Memory) (prev : F64) (res : Memory × F64),
        (∀ n, first ≠ .MemoryPlus n) → (∀ n, first ≠ .MemoryMinus n) →
        dispatchTokens (first :: rest) mem prev = .ok res → res.1 = mem) := by
  refine ⟨?_, ?_, ?_⟩
  · intro fuel tokens index mem v next h1 h2 h3
    simp [evalPrimaryExpression, h1, h2, h3]
  · intro fuel tokens index mem v next tok h1 h2 h3 h4
    cases tok <;> simp_all [evalPrimaryExpression, h1, h2, h3]
  · intro first rest mem prev res h1 h2 hdisp
    cases first
    case MemoryPlus n => exact absurd rfl (h1 n)
    case MemoryMinus n => exact absurd rfl (h2 n)
    all_goals
      simp only [dispatchTokens] at hdisp
      split at hdisp <;> cases hdisp <;> rfl

/-- Claim C4, witness for the amended theorem on the token sequences of
`( 1 + 1` and `( 1 1`, and on the expression-path frame condition. -/
theorem C4_witness :
    evalPrimaryExpression 21
      [Token.LParen, Token.Number (.finite 1), Token.Plus, Token.Number (.finite 1)] 0 Memory.new
      = .panicked .indexOutOfBounds
  ∧ evalPrimaryExpression 21
      [Token.LParen, Token.Number (.finite 1), Token.Number (.finite 1)] 0 Memory.new
      = .panicked .assertRParen
  ∧ (Memory.new, F64.finite 42).1 = Memory.new :=
  ⟨C4_amended.1 20 _ 0 Memory.new (.finite (1 + 1)) 4 rfl rfl rfl,
   C4_amended.2.1 20 _ 0 Memory.new (.finite 1) 2 (.Number (.finite 1)) rfl rfl rfl (by decide),
   C4_amended.2.2 (.Number (.finite 42)) [] Memory.new (.finite 0) (Memory.new, .finite 42)
     (fun n h => Token.noConfusion h) (fun n h => Token.noConfusion h) rfl⟩

/-- Claim C5, counterexample: the single-spaced line `1 + 2` tokenizes,
but the same pieces separated by a double space do not tokenize to the
same sequence — `split(char::is_whitespace)` keeps the empty piece
between the two spaces, and parsing that empty piece panics. -/
theorem C5_counterexample :
    Token.split "1 + 2" = .ok [.Number (.finite 1), .Plus, .Number (.finite 2)]
  ∧ Token.split "1  + 2" = .error .numberParse :=
  ⟨rfl, rfl⟩

/-- Claim C5 as amended: the tokenizer splits at every single whitespace
character (not at runs), so any line with two adjacent whitespace
characters has an empty piece, whose number-parse unwrap panics: the line
does not tokenize like its single-space-separated counterpart. -/
theorem C5_amended (s t : String) (c d : Char)
    (hc : isRustWhitespace c = true) (hd : isRustWhitespace d = true) :
    Token.split (s ++ String.mk [c, d] ++ t) = .error .numberParse := by
  unfold Token.split
  apply parseAll_numberParse
  have h1 : (s ++ String.mk [c, d] ++ t).toList = (s.toList ++ [c, d]) ++ t.toList := rfl
  have htl : (s ++ String.mk [c, d] ++ t).toList = s.toList ++ c :: d :: t.toList := by
    rw [h1, List.append_assoc]
    rfl
  rw [htl]
  have hmem : [] ∈ splitChars isRustWhitespace (s.toList ++ c :: d :: t.toList) :=
    List.mem_of_mem_tail (nil_mem_splitChars_tail _ c d hc hd s.toList t.toList)
  exact List.mem_map_of_mem String.mk hmem

/-- Claim C5, witness: the amended theorem applied at the double-spaced
line built from `1` and `+ 2`. -/
theorem C5_witness :
    Token.split ("1" ++ String.mk [' ', ' '] ++ "+ 2") = .error .numberParse :=
  C5_amended "1" "+ 2" ' ' ' ' rfl rfl

/-- Claim C6: a line whose first token is a memory-plus command calls
`Memory::add` with the previous result (memory-minus: with its negation)
and leaves `previous_result` unchanged; a line dispatched to the
expression path sets `previous_result` to the value of a successful
evaluation. -/
theorem C6_dispatcher :
    (∀ (name : String) (rest : List Token) (mem : Memory) (prev : F64),
        dispatchTokens (.MemoryPlus name :: rest) mem prev
          = .ok ((mem.add name prev).1, prev))
  ∧ (∀ (name : String) (rest : List Token) (mem : Memory) (prev : F64),
        dispatchTokens (.MemoryMinus name :: rest) mem prev
          = .ok ((mem.add name prev.neg).1, prev))
  ∧ (∀ (first : Token) (rest : List Token) (mem : Memory) (prev r : F64),
        (∀ n, first ≠ .MemoryPlus n) → (∀ n, first ≠ .MemoryMinus n) →
        evalExpression (first :: rest) mem = .ok r →
        dispatchTokens (first :: rest) mem prev = .ok (mem, r)) := by
  refine ⟨fun name rest mem prev => rfl, fun name rest mem prev => rfl, ?_⟩
  intro first rest mem prev r h1 h2 hEval
  cases first
  case MemoryPlus n => exact absurd rfl (h1 n)
  case MemoryMinus n => exact absurd rfl (h2 n)
  all_goals simp [dispatchTokens, hEval]

/-- Claim C6, witness on the lines `memx+`, `memx-` and the expression
`1 + 2`. -/
theorem C6_witness :
    dispatchTokens [Token.MemoryPlus "x"] Memory.new (.finite 2)
      = .ok ((Memory.new.add "x" (.finite 2)).1, .finite 2)
  ∧ dispatchTokens [Token.MemoryMinus "x"] Memory.new (.finite 2)
      = .ok ((Memory.new.add "x" (F64.finite 2).neg).1, .finite 2)
  ∧ dispatchTokens [Token.Number (.finite 1), Token.Plus, Token.Number (.finite 2)]
      Memory.new (.finite 9) = .ok (Memory.new, .finite (1 + 2)) :=
  ⟨C6_dispatcher.1 "x" [] Memory.new (.finite 2),
   C6_dispatcher.2.1 "x" [] Memory.new (.finite 2),
   C6_dispatcher.2.2 (.Number (.finite 1)) [Token.Plus, Token.Number (.finite 2)]
     Memory.new (.finite 9) (.finite (1 + 2))
     (fun n h => Token.noConfusion h) (fun n h => Token.noConfusion h) rfl⟩

/-- Claim C7: `Memory::add` is total, adds the delta into an occupied
slot and inserts it into a vacant one, returning the new stored value,
and touches no other slot; from the empty store, adding five and then
minus two to `x` stores and returns three, the same store as a single add
of three; `Memory::get` returns the stored value and exactly zero for a
never-set name. -/
theorem C7_memory :
    (∀ (mem : Memory) (name : String) (delta v : F64),
        mem.slots name = some v →
          (mem.add name delta).2 = v.add delta
        ∧ (mem.add name delta).1.slots name = some (v.add delta)
        ∧ ∀ n, n ≠ name → (mem.add name delta).1.slots n = mem.slots n)
  ∧ (∀ (mem : Memory) (name : String) (delta : F64),
        mem.slots name = none →
          (mem.add name delta).2 = delta
        ∧ (mem.add name delta).1.slots name = some delta
        ∧ ∀ n, n ≠ name → (mem.add name delta).1.slots n = mem.slots n)
  ∧ (((Memory.new.add "x" (.finite 5)).1.add "x" (.finite (-2))).2 = .finite 3
     ∧ ∀ n, ((Memory.new.add "x" (.finite 5)).1.add "x" (.finite (-2))).1.slots n
          = (Memory.new.add "x" (.finite 3)).1.slots n)
  ∧ (∀ (mem : Memory) (name : String) (v : F64),
        mem.slots name = some v → mem.get name = v)
  ∧ (∀ name, Memory.new.get name = .finite 0) := by
  refine ⟨?_, ?_, ⟨?_, ?_⟩, ?_, fun name => rfl⟩
  · intro mem name delta v h
    refine ⟨by simp [Memory.add, h], by simp [Memory.add, h], ?_⟩
    intro n hn
    simp [Memory.add, h, hn]
  · intro mem name delta h
    refine ⟨by simp [Memory.add, h], by simp [Memory.add, h], ?_⟩
    intro n hn
    simp [Memory.add, h, hn]
  · show F64.finite (5 + -2) = F64.finite 3
    norm_num
  · intro n
    by_cases hn : n = "x" <;> simp [Memory.add, Memory.new, F64.add, hn] <;> norm_num
  · intro mem name v h
    simp [Memory.get, h]

/-- Claim C7, witness discharging the occupied-slot, vacant-slot and get
hypotheses at concrete stores. -/
theorem C7_witness :
    ((⟨fun n => if n = "x" then some (F64.finite 5) else none⟩ : Memory).add "x" (.finite 7)).2
      = (F64.finite 5).add (.finite 7)
  ∧ (Memory.new.add "y" (.finite 4)).2 = .finite 4
  ∧ (⟨fun n => if n = "x" then some (F64.finite 5) else none⟩ : Memory).get "x" = .finite 5
  ∧ Memory.new.get "z" = .finite 0 :=
  ⟨(C7_memory.1 _ "x" (.finite 7) (.finite 5) (by simp)).1,
   (C7_memory.2.1 Memory.new "y" (.finite 4) rfl).1,
   C7_memory.2.2.2.1 _ "x" (.finite 5) (by simp),
   C7_memory.2.2.2.2 "z"⟩

/-- Claim C8, counterexample: the claim quantifies over every
well-formed expression nested to depth at least 10, but the depth-10
nesting of `2 * 3` — well-formed and nested to depth 10 — does not
evaluate correctly (to 6): through the C1 bug the primary evaluator is
entered on the `*` token and the line panics at `unreachable!()`. -/
theorem C8_counterexample :
    Token.split "( ( ( ( ( ( ( ( ( ( 2 * 3 ) ) ) ) ) ) ) ) ) )" = .ok (mulNest 10)
  ∧ processLine "( ( ( ( ( ( ( ( ( ( 2 * 3 ) ) ) ) ) ) ) ) ) )" Memory.new (.finite 0)
      = .panicked .unreachableCode :=
  ⟨rfl, rfl⟩

/-- Claim C8 as amended, restricted to expressions without `*` and `/`
(which panic at any depth through the C1 bug): every well-formed
`*`/`/`-free expression — numbers, memory references, `+`/`-` chains and
arbitrarily deep parenthesized sub-chains, so in particular every
nesting depth of at least 10 — evaluates without panic to its
left-to-right value over the program's own f64 operations, consuming the
whole token sequence; the spec's example line tokenizes to exactly the
depth-4 sequence of the nested family and evaluates to 5, and the
depth-10 sequence evaluates to 11. -/
theorem C8_amended :
    (∀ (c : Chain) (mem : Memory),
        evalExpression (Chain.tokens c) mem = .ok (Chain.value mem c))
  ∧ Token.split "( ( ( ( 1 + 1 ) + 1 ) + 1 ) + 1 )" = .ok (nestTokens 4)
  ∧ evalExpression (nestTokens 4) Memory.new = .ok (.finite 5)
  ∧ evalExpression (nestTokens 10) Memory.new = .ok (.finite 11) := by
  refine ⟨evalExpression_chain, rfl, ?_, ?_⟩
  · have h := evalExpression_chain (Chain.chain (nestOperand 4) Steps.nil) Memory.new
    rw [show Chain.tokens (Chain.chain (nestOperand 4) Steps.nil) = nestTokens 4 from rfl] at h
    rw [show Chain.value Memory.new (Chain.chain (nestOperand 4) Steps.nil)
        = F64.finite (1 + 1 + 1 + 1 + 1) from rfl] at h
    rw [h]
    norm_num
  · have h := evalExpression_chain (Chain.chain (nestOperand 10) Steps.nil) Memory.new
    rw [show Chain.tokens (Chain.chain (nestOperand 10) Steps.nil) = nestTokens 10 from rfl] at h
    rw [show Chain.value Memory.new (Chain.chain (nestOperand 10) Steps.nil)
        = F64.finite (1 + 1 + 1 + 1 + 1 + 1 + 1 + 1 + 1 + 1 + 1) from rfl] at h
    rw [h]
    norm_num

/-- Claim C9 (code bug): the claim says division by zero quietly follows
IEEE754 (`1 / 0` gives positive infinity, `-1 / 0` negative infinity,
`0 / 0` NaN).  In the code, the same missing `index + 1` as in C1 sends
the primary evaluator to the `/` token itself, so all three lines panic
at `unreachable!()` before any division is performed; the panic kills the
process. -/
theorem C9_division_by_zero_panics :
    processLine "1 / 0" Memory.new (.finite 0) = .panicked .unreachableCode
  ∧ processLine "-1 / 0" Memory.new (.finite 0) = .panicked .unreachableCode
  ∧ processLine "0 / 0" Memory.new (.finite 0) = .panicked .unreachableCode :=
  ⟨rfl, rfl, rfl⟩

/-- Claim C10: the line `1 + mem2+` tokenizes with first token a number,
so the dispatcher sends it down the expression path, where the
`MemoryPlus` token sits in primary position and
`eval_primary_expression` hits its `unreachable!()` arm; the (uncalled)
`eval_token` has the same arm for every token other than a number or a
memory reference. -/
theorem C10_memory_token_in_expression :
    Token.split "1 + mem2+" = .ok [.Number (.finite 1), .Plus, .MemoryPlus "2"]
  ∧ (∀ (mem : Memory) (prev : F64),
       processLine "1 + mem2+" mem prev = .panicked .unreachableCode)
  ∧ (∀ (mem : Memory) (name : String),
       evalToken (.MemoryPlus name) mem = .panicked .unreachableCode) :=
  ⟨rfl, fun _ _ => rfl, fun _ _ => rfl⟩

end CalcMem
